import Mathlib

/-!
Shallow embedding of the JARVIS trading-assistant core
(`src/services/geminiService.ts`: the `analyzeMarketStrategy` collaborator
wrapper, and the App component's candle window, EMA indicator, local tick
aggregation, analysis scheduler and memory-archive logic).

JavaScript numbers are embedded as `ℚ` (all arithmetic the claims touch is
exact on the inputs considered), millisecond timestamps as `ℕ`, and the
optional `aiSignal` / `ema*` fields as `Option`.
-/

namespace Jarvis

/-- The `aiSignal` annotation a candle may carry (`'bullish' | 'bearish'`). -/
inductive Signal where
  | bullish
  | bearish
deriving DecidableEq, Repr

/-- `CandleData` from `types.ts`: one OHLCV candle keyed by its open time,
with optional EMA annotations and an optional AI signal tag. The source
field `open` is a reserved word in Lean and is embedded as `open_`. -/
structure Candle where
  time : ℕ
  open_ : ℚ
  high : ℚ
  low : ℚ
  close : ℚ
  volume : ℚ
  ema7 : Option ℚ := none
  ema25 : Option ℚ := none
  ema99 : Option ℚ := none
  aiSignal : Option Signal := none
deriving DecidableEq, Repr

/-- `const MAX_CANDLES = 120` — the window bound. -/
def MAX_CANDLES : ℕ := 120

/-- The running-EMA loop of `calculateEMA`: starting from the seed `ema`,
each close `c` yields `c * k + ema * (1 - k)` and becomes the new seed. -/
def emaLoop (k : ℚ) : ℚ → List ℚ → List ℚ
  | _, [] => []
  | ema, c :: cs =>
    let e := c * k + ema * (1 - k)
    e :: emaLoop k e cs

/-- `calculateEMA(data, period)`: all-`undefined` when the window is shorter
than the period; otherwise `period - 1` leading `undefined`s, then the
arithmetic mean of the first `period` closes as seed, then the smoothing
recurrence with `k = 2 / (period + 1)`. -/
def calculateEMA (data : List Candle) (period : ℕ) : List (Option ℚ) :=
  if data.length < period then
    List.replicate data.length none
  else
    let k : ℚ := 2 / ((period : ℚ) + 1)
    let seed : ℚ := (((data.take period).map Candle.close).sum) / (period : ℚ)
    List.replicate (period - 1) none
      ++ some seed :: (emaLoop k seed ((data.drop period).map Candle.close)).map some

/-- The `updated.map((c, i) => ({...c, ema7: ema7[i], ...}))` step: write
the i-th element of each EMA array onto the i-th candle (an out-of-range
index reads as `undefined`, matching JS array indexing). -/
def stampEMAs : List Candle → List (Option ℚ) → List (Option ℚ) → List (Option ℚ) → List Candle
  | [], _, _, _ => []
  | c :: cs, a, b, d =>
    { c with ema7 := a.headD none, ema25 := b.headD none, ema99 := d.headD none }
      :: stampEMAs cs a.tail b.tail d.tail

/-- The shared tail of both mutation paths: recompute the three EMAs over
the whole window and stamp them onto every candle by index. -/
def applyIndicators (updated : List Candle) : List Candle :=
  stampEMAs updated (calculateEMA updated 7) (calculateEMA updated 25) (calculateEMA updated 99)

/-- The shared window-bound step: `if (updated.length > MAX_CANDLES)
updated = updated.slice(updated.length - MAX_CANDLES)`. -/
def enforceBound (updated : List Candle) : List Candle :=
  if MAX_CANDLES < updated.length then updated.drop (updated.length - MAX_CANDLES) else updated

/-- `updateCandles(newCandle)` on a window `prev`: replace the last candle
in place when its `time` matches (keeping the last candle's `aiSignal`,
everything else verbatim from the incoming candle), otherwise append; then
enforce the bound and recompute/stamp the EMAs. -/
def updateCandles (prev : List Candle) (newCandle : Candle) : List Candle :=
  let updated :=
    match prev.getLast? with
    | some lastCandle =>
      if lastCandle.time = newCandle.time then
        prev.dropLast ++ [{ newCandle with aiSignal := lastCandle.aiSignal }]
      else
        prev ++ [newCandle]
    | none => prev ++ [newCandle]
  applyIndicators (enforceBound updated)

/-- The in-place tick merge of `aggregateCandleLocally`: spread the last
candle, raise `high`, lower `low`, set `close`, and add the per-second
volume slice `vol / 60`. -/
def mergedTick (lastCandle : Candle) (price : ℚ) (vol : ℚ) : Candle :=
  { lastCandle with
      high := max lastCandle.high price
      low := min lastCandle.low price
      close := price
      volume := lastCandle.volume + vol / 60 }

/-- The fresh candle `aggregateCandleLocally` pushes for a new bucket:
all four prices equal the tick price and `volume = vol / 60`. -/
def freshTick (price : ℚ) (candleTime : ℕ) (vol : ℚ) : Candle :=
  { time := candleTime, open_ := price, high := price, low := price,
    close := price, volume := vol / 60 }

/-- `aggregateCandleLocally(price, time, vol)` on a window `prev`: bucket
the event time to the minute (`Math.floor(time / 60000) * 60000`), merge
into the last candle when it occupies that bucket, otherwise append a
fresh candle; then enforce the bound and recompute/stamp the EMAs. -/
def aggregateCandleLocally (prev : List Candle) (price : ℚ) (time : ℕ) (vol : ℚ) : List Candle :=
  let candleTime := time / 60000 * 60000
  let updated :=
    match prev.getLast? with
    | some lastCandle =>
      if lastCandle.time = candleTime then
        prev.dropLast ++ [mergedTick lastCandle price vol]
      else
        prev ++ [freshTick price candleTime vol]
    | none => prev ++ [freshTick price candleTime vol]
  applyIndicators (enforceBound updated)

/-- `MarketAnalysis` from `types.ts`. -/
structure MarketAnalysis where
  sentiment : String
  entryPoint : String
  exitPoint : String
  reasoning : String
  learningNode : String
  timestamp : ℕ
deriving DecidableEq, Repr

/-- The shape a successfully JSON-parsed collaborator answer may take: each
field is optional (and may be the empty string, which JS treats as falsy in
the `result.field || default` fallbacks). -/
structure ParsedAnalysis where
  sentiment : Option String := none
  entryPoint : Option String := none
  exitPoint : Option String := none
  reasoning : Option String := none
  learningNode : Option String := none
deriving DecidableEq, Repr

/-- Outcome of one call to the external analysis collaborator, as observed
by `analyzeMarketStrategy`: the request may throw (`unreachable`), or
respond with text that fails `JSON.parse` (`parseFailure`), or respond with
text that parses to a `ParsedAnalysis`. -/
inductive CollabOutcome where
  | unreachable
  | parseFailure
  | parsed (r : ParsedAnalysis)
deriving DecidableEq, Repr

/-- The JS `result.field || 'default'` fallback: a missing or empty-string
field is replaced by the default. -/
def orDefault (field : Option String) (d : String) : String :=
  match field with
  | some v => if v = "" then d else v
  | none => d

/-- `analyzeMarketStrategy`: total over every collaborator outcome. A thrown
request yields the connection-broken result (`'信号干扰'`); a response that
cannot be parsed as JSON yields the neutral recalibrating result
(`'中性 (NEUTRAL)'`); a parsed response is normalized field by field. -/
def analyzeMarketStrategy (outcome : CollabOutcome) (now : ℕ) : MarketAnalysis :=
  match outcome with
  | .unreachable =>
    { sentiment := "信号干扰"
      entryPoint := "---"
      exitPoint := "---"
      reasoning := "无法连接至神经网络核心，正在重试链路。"
      learningNode := "连接中断"
      timestamp := now }
  | .parseFailure =>
    { sentiment := "中性 (NEUTRAL)"
      entryPoint := "计算中..."
      exitPoint := "计算中..."
      reasoning := "神经网络正在重新校准数据..."
      learningNode := "保持观望"
      timestamp := now }
  | .parsed r =>
    { sentiment := orDefault r.sentiment "中性 (NEUTRAL)"
      entryPoint := orDefault r.entryPoint "观察"
      exitPoint := orDefault r.exitPoint "观察"
      reasoning := orDefault r.reasoning "市场波动异常，建议保持观望。"
      learningNode := orDefault r.learningNode "数据积累中..."
      timestamp := now }

/-- The scheduler's memory-archive guard from `runAnalysis`:
`if (result.learningNode && result.learningNode.length > 5)` — a lesson is
appended to the memory stream only when the learning node is a non-empty
string of length strictly greater than 5. -/
def shouldArchiveLesson (learningNode : String) : Bool :=
  learningNode != "" && decide (5 < learningNode.length)

/-- The primary (Binance) latency sample: `setLatency(now - data.E)`. -/
def binanceLatency (now eventTime : ℤ) : ℤ := now - eventTime

/-- The secondary (Coinbase) latency sample:
`setLatency(Math.max(0, now - serverTime))`. -/
def coinbaseLatency (now serverTime : ℤ) : ℤ := max 0 (now - serverTime)

/-- Startup-trigger model state: window length, whether any analysis has
ever produced a result (`analysis !== null`), and how many times the
startup trigger has fired a run. -/
structure AppState where
  candleCount : ℕ
  analysisDone : Bool
  startupFires : ℕ
deriving DecidableEq, Repr

/-- The mount-time state: empty window, no analysis result, no fires. -/
def initialAppState : AppState := ⟨0, false, 0⟩

/-- One fresh primary candle appends to the window, then the startup-trigger
effect `if (!analysis && candleData.length > 10) runAnalysis()` runs;
`runAnalysis` itself returns early when `candleData.length < 10`, and a run
that proceeds publishes an analysis result (the collaborator wrapper is
total, so `setAnalysis` always executes). -/
def applyPrimaryCandle (s : AppState) : AppState :=
  let n := s.candleCount + 1
  if !s.analysisDone && decide (10 < n) && !(decide (n < 10)) then
    { candleCount := n, analysisDone := true, startupFires := s.startupFires + 1 }
  else
    { s with candleCount := n }

/-- Single-flight model state for `runAnalysis`: the
`analysisInProgressRef` guard, the number of `setAnalysis(result)` side
effects so far, and the window length read by the early-return guard. -/
structure SchedulerState where
  analysisInProgress : Bool
  resultsProduced : ℕ
  candleCount : ℕ
deriving DecidableEq, Repr

/-- The synchronous prefix of `runAnalysis`:
`if (analysisInProgressRef.current || candleDataRef.current.length < 10)
return;` — otherwise the single-flight guard is acquired. -/
def runAnalysisStart (s : SchedulerState) : SchedulerState :=
  if s.analysisInProgress || decide (s.candleCount < 10) then s
  else { s with analysisInProgress := true }

/-- The in-flight cycle settling: a cycle whose body completes produces
exactly one `setAnalysis(result)` side effect, a cycle whose body throws
produces none, and the `finally` block releases the guard in both cases. -/
def runAnalysisSettle (success : Bool) (s : SchedulerState) : SchedulerState :=
  let s' := if success then { s with resultsProduced := s.resultsProduced + 1 } else s
  { s' with analysisInProgress := false }

/-- Projection of a candle onto the fields the mutation paths carry through
unchanged (everything except the recomputed EMA annotations). -/
def core (c : Candle) : ℕ × ℚ × ℚ × ℚ × ℚ × ℚ × Option Signal :=
  (c.time, c.open_, c.high, c.low, c.close, c.volume, c.aiSignal)

/-- A minimal candle at open time `t` with all four prices equal to `q`
(used to build concrete instances). -/
def mkCandle (t : ℕ) (q : ℚ) : Candle :=
  { time := t, open_ := q, high := q, low := q, close := q, volume := 0 }

/-- A bucket-0 candle carrying a signal, as the first incoming candle of the
replace-twice scenario. -/
def sigFirst : Candle := { mkCandle 0 1 with aiSignal := some Signal.bullish }

/-- A bucket-0 candle with nonzero volume, as the pre-existing last candle of
the two-ticks-one-bucket scenario. -/
def tickBase : Candle := { time := 0, open_ := 10, high := 10, low := 10, close := 10, volume := 5 }

/-- A full window of `MAX_CANDLES` minute-aligned candles. -/
def fifoWindow : List Candle := (List.range 120).map (fun i => mkCandle (60000 * i) 1)

/-- A candle for the minute after `fifoWindow`'s last candle. -/
def fifoCandle : Candle := mkCandle (60000 * 120) 2

/-- A three-candle window for instantiating the EMA contract. -/
def emaSampleData : List Candle := [mkCandle 0 1, mkCandle 60000 2, mkCandle 120000 4]

/-! Theorems. -/

theorem emaLoop_length (k e : ℚ) (cs : List ℚ) : (emaLoop k e cs).length = cs.length := by
  induction cs generalizing e with
  | nil => rfl
  | cons c cs ih => simp [emaLoop, ih]

theorem emaLoop_getD_zero (k e : ℚ) (cs : List ℚ) (h : 0 < cs.length) :
    (emaLoop k e cs).getD 0 0 = cs.getD 0 0 * k + e * (1 - k) := by
  cases cs with
  | nil => simp at h
  | cons c cs => rfl

theorem emaLoop_getD_succ (k e : ℚ) (cs : List ℚ) (j : ℕ) (h : j + 1 < cs.length) :
    (emaLoop k e cs).getD (j + 1) 0 =
      cs.getD (j + 1) 0 * k + (emaLoop k e cs).getD j 0 * (1 - k) := by
  induction cs generalizing e j with
  | nil => simp at h
  | cons c cs ih =>
    cases j with
    | zero =>
      cases cs with
      | nil => simp at h
      | cons c2 cs2 => rfl
    | succ m =>
      have h' : m + 1 < cs.length := by simpa using h
      have hrec := ih (c * k + e * (1 - k)) m h'
      simpa [emaLoop, List.getD_cons_succ] using hrec

theorem getD_replicate_none {α : Type} (n i : ℕ) :
    (List.replicate n (none : Option α)).getD i none = none := by
  rcases Nat.lt_or_ge i n with h | h
  · rw [List.getD_eq_getElem _ _ (by simpa using h)]
    simp
  · exact List.getD_eq_default _ _ (by simpa using h)

theorem getD_map_some (l : List ℚ) (j : ℕ) (h : j < l.length) :
    (l.map some).getD j none = some (l.getD j 0) := by
  rw [List.getD_eq_getElem _ _ (by simpa using h), List.getD_eq_getElem _ _ h]
  simp

theorem getD_drop_q (l : List ℚ) (n j : ℕ) (h : n + j < l.length) :
    (l.drop n).getD j 0 = l.getD (n + j) 0 := by
  rw [List.getD_eq_getElem _ _ (by rw [List.length_drop]; omega),
    List.getD_eq_getElem _ _ h]
  simp

theorem calculateEMA_of_le (data : List Candle) (period : ℕ) (h : period ≤ data.length) :
    calculateEMA data period =
      List.replicate (period - 1) none
        ++ some ((((data.take period).map Candle.close).sum) / (period : ℚ))
          :: (emaLoop (2 / ((period : ℚ) + 1))
                ((((data.take period).map Candle.close).sum) / (period : ℚ))
                ((data.drop period).map Candle.close)).map some := by
  rw [calculateEMA, if_neg (by omega)]

/-- C2: the EMA contract of `calculateEMA`: same output length as the input;
all-undefined when the window is shorter than the period; otherwise
undefined strictly below index `period - 1`, the arithmetic mean of the
first `period` closes at index `period - 1`, defined from there on, and the
smoothing recurrence `ema[i] = close[i]*k + ema[i-1]*(1-k)` with
`k = 2/(period+1)` at every index `i ≥ period`; and for 99 identical-close
candles the value at index 98 is the common close. -/
theorem calculateEMA_spec (data : List Candle) (period : ℕ) (hp : 0 < period) :
    (calculateEMA data period).length = data.length
    ∧ (data.length < period → ∀ x ∈ calculateEMA data period, x = none)
    ∧ (period ≤ data.length →
        (∀ i, i < period - 1 → (calculateEMA data period).getD i none = none)
        ∧ (calculateEMA data period).getD (period - 1) none
            = some ((((data.take period).map Candle.close).sum) / (period : ℚ))
        ∧ (∀ i, period - 1 ≤ i → i < data.length →
            (calculateEMA data period).getD i none ≠ none)
        ∧ (∀ i, period ≤ i → i < data.length → ∀ e : ℚ,
            (calculateEMA data period).getD (i - 1) none = some e →
            (calculateEMA data period).getD i none
              = some ((data.map Candle.close).getD i 0 * (2 / ((period : ℚ) + 1))
                  + e * (1 - 2 / ((period : ℚ) + 1)))))
    ∧ (∀ c : ℚ, (calculateEMA (List.replicate 99 (mkCandle 0 c)) 99).getD 98 none = some c) := by
  have hseed : ∀ (d : List Candle) (p : ℕ), p ≤ d.length → 0 < p →
      (calculateEMA d p).getD (p - 1) none
        = some ((((d.take p).map Candle.close).sum) / (p : ℚ)) := by
    intro d p hpd hp0
    rw [calculateEMA_of_le d p hpd,
      List.getD_append_right _ _ _ _ (by simp)]
    simp
  refine ⟨?_, ?_, ?_, ?_⟩
  · by_cases hlt : data.length < period
    · rw [calculateEMA, if_pos hlt]
      simp
    · rw [calculateEMA_of_le data period (by omega)]
      simp [emaLoop_length]
      omega
  · intro hlt x hx
    rw [calculateEMA, if_pos hlt] at hx
    exact List.eq_of_mem_replicate hx
  · intro hge
    have hk := calculateEMA_of_le data period hge
    set k : ℚ := 2 / ((period : ℚ) + 1) with hkdef
    set seed : ℚ := (((data.take period).map Candle.close).sum) / (period : ℚ) with hsdef
    set closes : List ℚ := (data.drop period).map Candle.close with hcdef
    have hcl : closes.length = data.length - period := by
      rw [hcdef]; simp
    have hgetD_hi : ∀ i, period ≤ i → i < data.length →
        (calculateEMA data period).getD i none
          = some ((emaLoop k seed closes).getD (i - period) 0) := by
      intro i hi hilen
      rw [hk, List.getD_append_right _ _ _ _ (by simp; omega)]
      simp only [List.length_replicate]
      have hidx : i - (period - 1) = (i - period) + 1 := by omega
      rw [hidx, List.getD_cons_succ]
      exact getD_map_some _ _ (by rw [emaLoop_length, hcl]; omega)
    refine ⟨?_, hseed data period hge hp, ?_, ?_⟩
    · intro i hi
      rw [hk, List.getD_append _ _ _ _ (by simpa using hi)]
      exact getD_replicate_none _ _
    · intro i hi1 hi2
      rcases Nat.lt_or_ge i period with hlo | hhi
      · have : i = period - 1 := by omega
        rw [this, hseed data period hge hp]
        simp
      · rw [hgetD_hi i hhi hi2]
        simp
    · intro i hi hilen e he
      have hclose : closes.getD (i - period) 0 = (data.map Candle.close).getD i 0 := by
        have hmd : closes = (data.map Candle.close).drop period := by
          rw [hcdef, List.map_drop]
        rw [hmd, getD_drop_q _ _ _ (by simp; omega)]
        congr 1
        omega
      rcases Nat.lt_or_ge (i - 1) period with hlo | hhi
      · -- i = period: the previous value is the seed
        have hieq : i = period := by omega
        have hprev : e = seed := by
          have := hseed data period hge hp
          rw [hieq] at he
          rw [he] at this
          exact Option.some_inj.mp this
        rw [hgetD_hi i hi hilen, hieq]
        have h0 : (0 : ℕ) < closes.length := by omega
        rw [Nat.sub_self, emaLoop_getD_zero k seed closes h0, hprev]
        have : closes.getD 0 0 = (data.map Candle.close).getD period 0 := by
          have := hclose
          rw [hieq] at this
          simpa [Nat.sub_self] using this
        rw [this]
      · -- i > period: the previous value is the loop value at i - period - 1
        have hprev : (emaLoop k seed closes).getD (i - 1 - period) 0 = e := by
          have := hgetD_hi (i - 1) hhi (by omega)
          rw [he] at this
          exact (Option.some_inj.mp this.symm)
        rw [hgetD_hi i hi hilen]
        have hidx : i - period = (i - 1 - period) + 1 := by omega
        rw [hidx, emaLoop_getD_succ k seed closes _ (by omega), hprev, ← hidx, hclose]
  · intro c
    have h99 : (99 : ℕ) ≤ (List.replicate 99 (mkCandle 0 c)).length := by simp
    have := hseed (List.replicate 99 (mkCandle 0 c)) 99 h99 (by omega)
    have hsum : (((List.replicate 99 (mkCandle 0 c)).take 99).map Candle.close).sum
        / ((99 : ℕ) : ℚ) = c := by
      rw [List.take_replicate, List.map_replicate, show min 99 99 = 99 from rfl,
        show Candle.close (mkCandle 0 c) = c from rfl, List.sum_replicate, nsmul_eq_mul]
      push_cast
      field_simp
    rw [show (99 : ℕ) - 1 = 98 from rfl] at this
    rw [this, hsum]

/-- C7: the analysis collaborator wrapper is total over every outcome and
preserves the distinction between the two failure modes: an unreachable
collaborator yields the connection-broken sentiment `'信号干扰'` with a
retry-oriented reasoning string, while an unparsable response yields the
distinct neutral recalibrating result with sentiment `'中性 (NEUTRAL)'`. -/
theorem analyzeMarketStrategy_failure_modes (now : ℕ) :
    (analyzeMarketStrategy CollabOutcome.unreachable now).sentiment = "信号干扰"
    ∧ (analyzeMarketStrategy CollabOutcome.unreachable now).reasoning
        = "无法连接至神经网络核心，正在重试链路。"
    ∧ (analyzeMarketStrategy CollabOutcome.parseFailure now).sentiment = "中性 (NEUTRAL)"
    ∧ (analyzeMarketStrategy CollabOutcome.unreachable now).sentiment
        ≠ (analyzeMarketStrategy CollabOutcome.parseFailure now).sentiment := by
  refine ⟨rfl, rfl, rfl, ?_⟩
  show ("信号干扰" : String) ≠ "中性 (NEUTRAL)"
  decide

/-- C10: both failure-mode fallback results of `analyzeMarketStrategy` carry
a `learningNode` of length at most 5, strictly below the scheduler's
archive threshold (`length > 5`), so neither failed cycle can append a
memory entry. -/
theorem failed_cycles_never_archive (now : ℕ) :
    (analyzeMarketStrategy CollabOutcome.unreachable now).learningNode = "连接中断"
    ∧ (analyzeMarketStrategy CollabOutcome.unreachable now).learningNode.length ≤ 5
    ∧ (analyzeMarketStrategy CollabOutcome.parseFailure now).learningNode = "保持观望"
    ∧ (analyzeMarketStrategy CollabOutcome.parseFailure now).learningNode.length ≤ 5
    ∧ shouldArchiveLesson (analyzeMarketStrategy CollabOutcome.unreachable now).learningNode = false
    ∧ shouldArchiveLesson (analyzeMarketStrategy CollabOutcome.parseFailure now).learningNode = false := by
  refine ⟨rfl, ?_, rfl, ?_, ?_, ?_⟩
  · show ("连接中断" : String).length ≤ 5
    decide
  · show ("保持观望" : String).length ≤ 5
    decide
  · show shouldArchiveLesson "连接中断" = false
    decide
  · show shouldArchiveLesson "保持观望" = false
    decide

/-- C8 counterexample: the primary (Binance) path publishes
`now − eventTime` without the `Math.max(0, ·)` clamp, so a source event
time ahead of the local clock yields a negative latency gauge. -/
theorem binanceLatency_negative :
    binanceLatency 100 200 = -100 ∧ binanceLatency 100 200 < 0 := by
  refine ⟨rfl, ?_⟩
  decide

/-- C8 amended: only the secondary (Coinbase) path clamps the latency
sample to be nonnegative; the primary (Binance) path publishes the raw
difference `now − eventTime`, which can be negative. -/
theorem latency_clamp_amended :
    (∀ now serverTime : ℤ, 0 ≤ coinbaseLatency now serverTime)
    ∧ (∀ now eventTime : ℤ, binanceLatency now eventTime = now - eventTime) :=
  ⟨fun _ _ => le_max_left 0 _, fun _ _ => rfl⟩

/-- C5 counterexample: with an empty window and no prior analysis result,
applying ten primary candles leaves the startup trigger unfired — the
trigger condition is `candleData.length > 10`, which is still false at
length 10, contradicting the claim that the tenth candle fires it once. -/
theorem startup_trigger_tenth_candle :
    (applyPrimaryCandle^[10] initialAppState).candleCount = 10
    ∧ (applyPrimaryCandle^[10] initialAppState).startupFires = 0 := by
  refine ⟨?_, ?_⟩ <;> decide

/-- C5 amended: from an empty window with no prior analysis result, the
startup trigger does not fire through the tenth candle and fires exactly
once at the eleventh candle (`candleData.length > 10`), after which it
never fires again. -/
theorem startup_trigger_fires_once_at_eleventh :
    (applyPrimaryCandle^[9] initialAppState).startupFires = 0
    ∧ (applyPrimaryCandle^[10] initialAppState).startupFires = 0
    ∧ (applyPrimaryCandle^[11] initialAppState).startupFires = 1
    ∧ ∀ k : ℕ, (applyPrimaryCandle^[11 + k] initialAppState).startupFires = 1 := by
  refine ⟨by decide, by decide, by decide, ?_⟩
  intro k
  induction k with
  | zero => decide
  | succ n ih =>
    have hdone : ∀ m : ℕ, 11 ≤ m → (applyPrimaryCandle^[m] initialAppState).analysisDone = true := by
      intro m hm
      induction m with
      | zero => omega
      | succ j ihj =>
        rcases Nat.lt_or_ge j 11 with hj | hj
        · have hj11 : j + 1 = 11 := by omega
          rw [hj11]; decide
        · have hd := ihj hj
          rw [Function.iterate_succ_apply']
          simp only [applyPrimaryCandle, hd]
          simp
    have h1 : 11 + (n + 1) = (11 + n) + 1 := by omega
    rw [h1, Function.iterate_succ_apply']
    have hd : (applyPrimaryCandle^[11 + n] initialAppState).analysisDone = true :=
      hdone (11 + n) (by omega)
    simp only [applyPrimaryCandle, hd]
    simpa using ih

/-- C2 witness: the EMA contract instantiated at a concrete three-candle
window with period 2. -/
theorem calculateEMA_spec_witness :
    0 < 2
    ∧ ((calculateEMA emaSampleData 2).length = emaSampleData.length
      ∧ (emaSampleData.length < 2 → ∀ x ∈ calculateEMA emaSampleData 2, x = none)
      ∧ (2 ≤ emaSampleData.length →
          (∀ i, i < 2 - 1 → (calculateEMA emaSampleData 2).getD i none = none)
          ∧ (calculateEMA emaSampleData 2).getD (2 - 1) none
              = some ((((emaSampleData.take 2).map Candle.close).sum) / ((2 : ℕ) : ℚ))
          ∧ (∀ i, 2 - 1 ≤ i → i < emaSampleData.length →
              (calculateEMA emaSampleData 2).getD i none ≠ none)
          ∧ (∀ i, 2 ≤ i → i < emaSampleData.length → ∀ e : ℚ,
              (calculateEMA emaSampleData 2).getD (i - 1) none = some e →
              (calculateEMA emaSampleData 2).getD i none
                = some ((emaSampleData.map Candle.close).getD i 0 * (2 / (((2 : ℕ) : ℚ) + 1))
                    + e * (1 - 2 / (((2 : ℕ) : ℚ) + 1)))))
      ∧ (∀ c : ℚ, (calculateEMA (List.replicate 99 (mkCandle 0 c)) 99).getD 98 none = some c)) :=
  ⟨by decide, calculateEMA_spec emaSampleData 2 (by decide)⟩

/-- C6: `runAnalysis` is single-flight: from an idle state with enough
history, the first entry acquires the guard, a second entry while the first
is pending is a silent no-op, a successfully settled cycle produces exactly
one analysis result even though `run` was issued twice, and the `finally`
release clears the guard whether the cycle body succeeded or failed. -/
theorem runAnalysis_single_flight (s : SchedulerState)
    (hidle : s.analysisInProgress = false) (hlen : 10 ≤ s.candleCount) :
    (runAnalysisStart s).analysisInProgress = true
    ∧ runAnalysisStart (runAnalysisStart s) = runAnalysisStart s
    ∧ (∀ b : Bool, (runAnalysisSettle b (runAnalysisStart (runAnalysisStart s))).analysisInProgress
        = false)
    ∧ (runAnalysisSettle true (runAnalysisStart (runAnalysisStart s))).resultsProduced
        = s.resultsProduced + 1 := by
  have hcond : (s.analysisInProgress || decide (s.candleCount < 10)) = false := by
    simp [hidle]; omega
  have h1 : runAnalysisStart s = { s with analysisInProgress := true } := by
    simp [runAnalysisStart, hcond]
  have h2 : runAnalysisStart (runAnalysisStart s) = runAnalysisStart s := by
    rw [h1]; simp [runAnalysisStart]
  refine ⟨by rw [h1], h2, ?_, ?_⟩
  · intro b
    cases b <;> simp [runAnalysisSettle]
  · rw [h2, h1]
    simp [runAnalysisSettle]

/-- C6 witness: the single-flight contract instantiated at the concrete
idle state with a 15-candle window. -/
theorem runAnalysis_single_flight_witness :
    (⟨false, 0, 15⟩ : SchedulerState).analysisInProgress = false
    ∧ 10 ≤ (⟨false, 0, 15⟩ : SchedulerState).candleCount
    ∧ ((runAnalysisStart ⟨false, 0, 15⟩).analysisInProgress = true
      ∧ runAnalysisStart (runAnalysisStart ⟨false, 0, 15⟩) = runAnalysisStart ⟨false, 0, 15⟩
      ∧ (∀ b : Bool,
          (runAnalysisSettle b (runAnalysisStart (runAnalysisStart ⟨false, 0, 15⟩))).analysisInProgress
            = false)
      ∧ (runAnalysisSettle true (runAnalysisStart (runAnalysisStart ⟨false, 0, 15⟩))).resultsProduced
          = (⟨false, 0, 15⟩ : SchedulerState).resultsProduced + 1) :=
  ⟨rfl, by decide, runAnalysis_single_flight ⟨false, 0, 15⟩ rfl (by decide)⟩

theorem stampEMAs_length (l : List Candle) (a b d : List (Option ℚ)) :
    (stampEMAs l a b d).length = l.length := by
  induction l generalizing a b d with
  | nil => rfl
  | cons c cs ih => simp [stampEMAs, ih]

theorem stampEMAs_map_core (l : List Candle) (a b d : List (Option ℚ)) :
    (stampEMAs l a b d).map core = l.map core := by
  induction l generalizing a b d with
  | nil => rfl
  | cons c cs ih => simp [stampEMAs, ih, core]

theorem applyIndicators_map_core (l : List Candle) :
    (applyIndicators l).map core = l.map core := stampEMAs_map_core _ _ _ _

theorem applyIndicators_length (l : List Candle) :
    (applyIndicators l).length = l.length := stampEMAs_length _ _ _ _

theorem map_time_eq_of_map_core_eq {l₁ l₂ : List Candle} (h : l₁.map core = l₂.map core) :
    l₁.map Candle.time = l₂.map Candle.time := by
  have h1 : l₁.map Candle.time = (l₁.map core).map Prod.fst := by
    rw [List.map_map]; rfl
  have h2 : l₂.map Candle.time = (l₂.map core).map Prod.fst := by
    rw [List.map_map]; rfl
  rw [h1, h2, h]

theorem enforceBound_eq_drop (l : List Candle) :
    enforceBound l = l.drop (l.length - MAX_CANDLES) := by
  rw [enforceBound]
  split
  · rfl
  · next h => rw [Nat.sub_eq_zero_of_le (by omega), List.drop_zero]

theorem enforceBound_length_le (l : List Candle) : (enforceBound l).length ≤ MAX_CANDLES := by
  rw [enforceBound]
  rcases Nat.lt_or_ge MAX_CANDLES l.length with h | h
  · rw [if_pos h, List.length_drop]
    omega
  · rw [if_neg (by omega)]
    omega

theorem enforceBound_eq_self {l : List Candle} (h : l.length ≤ MAX_CANDLES) :
    enforceBound l = l := by
  rw [enforceBound, if_neg (by omega)]

theorem mem_le_getLastD_of_pairwise_lt : ∀ (l : List ℕ), l.Pairwise (· < ·) →
    ∀ x ∈ l, x ≤ l.getLast?.getD 0 := by
  intro l
  induction l with
  | nil => simp
  | cons a as ih =>
    intro hp x hx
    cases as with
    | nil =>
      simp only [List.mem_singleton] at hx
      subst hx
      simp
    | cons b bs =>
      rw [List.getLast?_cons_cons]
      have hpc := List.pairwise_cons.mp hp
      rcases List.mem_cons.mp hx with rfl | hmem
      · have hne : (b :: bs) ≠ ([] : List ℕ) := by simp
        have hlast : (b :: bs).getLast?.getD 0 ∈ b :: bs := by
          rw [List.getLast?_eq_getLast _ hne]
          exact List.getLast_mem hne
        have := hpc.1 _ hlast
        omega
      · exact ih hpc.2 x hmem

/-- Any merge/append step followed by the bound and indicator stamping: the
result's times are the (possibly front-evicted) times of the prefix followed
by the appended candle's time, the length respects the bound, and the last
element's carried fields are those of the appended candle. -/
theorem append_step_core (A : List Candle) (x : Candle) :
    (applyIndicators (enforceBound (A ++ [x]))).map Candle.time
        = (A.map Candle.time).drop ((A.length + 1) - MAX_CANDLES) ++ [x.time]
    ∧ ((applyIndicators (enforceBound (A ++ [x]))).map core).getLast? = some (core x)
    ∧ (applyIndicators (enforceBound (A ++ [x]))).length ≤ MAX_CANDLES := by
  have hdrople : (A.length + 1) - MAX_CANDLES ≤ A.length := by
    have : 0 < MAX_CANDLES := by decide
    omega
  have hmc : (applyIndicators (enforceBound (A ++ [x]))).map core
      = ((A ++ [x]).map core).drop ((A.length + 1) - MAX_CANDLES) := by
    rw [applyIndicators_map_core, enforceBound_eq_drop, List.map_drop]
    simp
  have hsplitc : ((A ++ [x]).map core).drop ((A.length + 1) - MAX_CANDLES)
      = (A.map core).drop ((A.length + 1) - MAX_CANDLES) ++ [core x] := by
    rw [List.map_append, List.drop_append_eq_append_drop]
    congr 1
    have h0 : (A.length + 1 - MAX_CANDLES) - (List.map core A).length = 0 := by
      rw [List.length_map]
      omega
    rw [h0]
    simp
  refine ⟨?_, ?_, ?_⟩
  · have hform : (applyIndicators (enforceBound (A ++ [x]))).map core
        = (A.drop ((A.length + 1) - MAX_CANDLES) ++ [x]).map core := by
      rw [hmc, hsplitc, List.map_append, List.map_drop]
      simp
    have hmt := map_time_eq_of_map_core_eq hform
    rw [hmt, List.map_append, List.map_drop]
    simp
  · rw [hmc, hsplitc]
    exact List.getLast?_concat _
  · rw [applyIndicators_length]
    exact enforceBound_length_le _

/-- One `updateCandles` call under in-order input: the result's times are a
strictly smaller, strictly increasing prefix followed by the incoming key,
the bound holds, and the last candle's carried fields are the incoming
candle's, with `aiSignal` taken from the previous last candle when the key
matched. -/
theorem updateCandles_step (w : List Candle) (c : Candle)
    (hlen : w.length ≤ MAX_CANDLES)
    (hinc : (w.map Candle.time).Pairwise (· < ·))
    (hlast : (w.map Candle.time).getLast?.getD 0 ≤ c.time) :
    ∃ pre : List ℕ,
      (updateCandles w c).map Candle.time = pre ++ [c.time]
      ∧ (∀ x ∈ pre, x < c.time)
      ∧ pre.Pairwise (· < ·)
      ∧ (updateCandles w c).length ≤ MAX_CANDLES
      ∧ ((updateCandles w c).map core).getLast? =
          some (core (match w.getLast? with
            | some l => if l.time = c.time then { c with aiSignal := l.aiSignal } else c
            | none => c)) := by
  rcases hw : w.getLast? with _ | l
  · -- empty window: plain append
    have hwnil : w = [] := List.getLast?_eq_none_iff.mp hw
    subst hwnil
    have hstep := append_step_core [] c
    refine ⟨[], ?_, by simp, by simp, ?_, ?_⟩
    · simpa [updateCandles] using hstep.1
    · simpa [updateCandles] using hstep.2.2
    · simpa [updateCandles] using hstep.2.1
  · have hwne : w ≠ [] := by
      intro hnil
      rw [hnil] at hw
      simp at hw
    have hsplit : w.dropLast ++ [l] = w :=
      List.dropLast_append_getLast? l hw
    have htsplit : (w.map Candle.time) = w.dropLast.map Candle.time ++ [l.time] := by
      conv_lhs => rw [← hsplit]
      simp
    have hlast_time : (w.map Candle.time).getLast?.getD 0 = l.time := by
      rw [htsplit, List.getLast?_concat]
      rfl
    by_cases hteq : l.time = c.time
    · -- replace in place
      have hupd : updateCandles w c
          = applyIndicators (enforceBound (w.dropLast ++ [{ c with aiSignal := l.aiSignal }])) := by
        simp only [updateCandles, hw]
        rw [if_pos hteq]
      have hstep := append_step_core w.dropLast { c with aiSignal := l.aiSignal }
      have hdll : w.dropLast.length + 1 = w.length := by
        have hpos : 0 < w.length := List.length_pos.mpr hwne
        rw [List.length_dropLast]
        omega
      have hnoevict : w.dropLast.length + 1 - MAX_CANDLES = 0 := by omega
      have hpair : (w.dropLast.map Candle.time).Pairwise (· < ·)
          ∧ ∀ x ∈ w.dropLast.map Candle.time, x < l.time := by
        rw [htsplit] at hinc
        have := List.pairwise_append.mp hinc
        exact ⟨this.1, fun x hx => by simpa using this.2.2 x hx⟩
      refine ⟨w.dropLast.map Candle.time, ?_, ?_, hpair.1, ?_, ?_⟩
      · rw [hupd]
        have := hstep.1
        rw [hnoevict, List.drop_zero] at this
        exact this
      · intro x hx
        have := hpair.2 x hx
        omega
      · rw [hupd]
        exact hstep.2.2
      · rw [hupd, hstep.2.1]
        simp only [hw]
        rw [if_pos hteq]
    · -- new key: append
      have hlt : l.time < c.time := by
        rw [hlast_time] at hlast
        omega
      have hupd : updateCandles w c = applyIndicators (enforceBound (w ++ [c])) := by
        simp only [updateCandles, hw]
        rw [if_neg hteq]
      have hstep := append_step_core w c
      refine ⟨(w.map Candle.time).drop ((w.length + 1) - MAX_CANDLES), ?_, ?_, ?_, ?_, ?_⟩
      · rw [hupd]
        exact hstep.1
      · intro x hx
        have hxmem : x ∈ w.map Candle.time := List.mem_of_mem_drop hx
        have := mem_le_getLastD_of_pairwise_lt _ hinc x hxmem
        rw [hlast_time] at this
        omega
      · exact (hinc.sublist (List.drop_sublist _ _))
      · rw [hupd]
        exact hstep.2.2
      · rw [hupd, hstep.2.1]
        simp only [hw]
        rw [if_neg hteq]

/-- One `aggregateCandleLocally` call under in-order input: the result's
times are a strictly smaller, strictly increasing prefix followed by the
tick's bucket key, the bound holds, and the last candle is the merged
candle when the previous last occupied the bucket, else the fresh one. -/
theorem aggregateCandleLocally_step (w : List Candle) (price : ℚ) (t : ℕ) (vol : ℚ)
    (hlen : w.length ≤ MAX_CANDLES)
    (hinc : (w.map Candle.time).Pairwise (· < ·))
    (hlast : (w.map Candle.time).getLast?.getD 0 ≤ t / 60000 * 60000) :
    ∃ pre : List ℕ,
      (aggregateCandleLocally w price t vol).map Candle.time = pre ++ [t / 60000 * 60000]
      ∧ (∀ x ∈ pre, x < t / 60000 * 60000)
      ∧ pre.Pairwise (· < ·)
      ∧ (aggregateCandleLocally w price t vol).length ≤ MAX_CANDLES
      ∧ ((aggregateCandleLocally w price t vol).map core).getLast? =
          some (core (match w.getLast? with
            | some l => if l.time = t / 60000 * 60000 then mergedTick l price vol
                        else freshTick price (t / 60000 * 60000) vol
            | none => freshTick price (t / 60000 * 60000) vol)) := by
  rcases hw : w.getLast? with _ | l
  · have hwnil : w = [] := List.getLast?_eq_none_iff.mp hw
    subst hwnil
    have hstep := append_step_core [] (freshTick price (t / 60000 * 60000) vol)
    refine ⟨[], ?_, by simp, by simp, ?_, ?_⟩
    · simpa [aggregateCandleLocally, freshTick] using hstep.1
    · simpa [aggregateCandleLocally] using hstep.2.2
    · simpa [aggregateCandleLocally] using hstep.2.1
  · have hwne : w ≠ [] := by
      intro hnil
      rw [hnil] at hw
      simp at hw
    have hsplit : w.dropLast ++ [l] = w :=
      List.dropLast_append_getLast? l hw
    have htsplit : (w.map Candle.time) = w.dropLast.map Candle.time ++ [l.time] := by
      conv_lhs => rw [← hsplit]
      simp
    have hlast_time : (w.map Candle.time).getLast?.getD 0 = l.time := by
      rw [htsplit, List.getLast?_concat]
      rfl
    by_cases hteq : l.time = t / 60000 * 60000
    · -- the last candle occupies the bucket: merge in place
      have hupd : aggregateCandleLocally w price t vol
          = applyIndicators (enforceBound (w.dropLast ++ [mergedTick l price vol])) := by
        simp only [aggregateCandleLocally, hw]
        rw [if_pos hteq]
      have hstep := append_step_core w.dropLast (mergedTick l price vol)
      have hdll : w.dropLast.length + 1 = w.length := by
        have hpos : 0 < w.length := List.length_pos.mpr hwne
        rw [List.length_dropLast]
        omega
      have hnoevict : w.dropLast.length + 1 - MAX_CANDLES = 0 := by omega
      have hpair : (w.dropLast.map Candle.time).Pairwise (· < ·)
          ∧ ∀ x ∈ w.dropLast.map Candle.time, x < l.time := by
        rw [htsplit] at hinc
        have := List.pairwise_append.mp hinc
        exact ⟨this.1, fun x hx => by simpa using this.2.2 x hx⟩
      refine ⟨w.dropLast.map Candle.time, ?_, ?_, hpair.1, ?_, ?_⟩
      · rw [hupd]
        have hm := hstep.1
        rw [hnoevict, List.drop_zero] at hm
        have hmt : (mergedTick l price vol).time = t / 60000 * 60000 := by
          simpa [mergedTick] using hteq
        rw [hmt] at hm
        exact hm
      · intro x hx
        have := hpair.2 x hx
        omega
      · rw [hupd]
        exact hstep.2.2
      · rw [hupd, hstep.2.1]
        simp only [hw]
        rw [if_pos hteq]
    · -- new bucket: append a fresh candle
      have hlt : l.time < t / 60000 * 60000 := by
        rw [hlast_time] at hlast
        omega
      have hupd : aggregateCandleLocally w price t vol
          = applyIndicators (enforceBound (w ++ [freshTick price (t / 60000 * 60000) vol])) := by
        simp only [aggregateCandleLocally, hw]
        rw [if_neg hteq]
      have hstep := append_step_core w (freshTick price (t / 60000 * 60000) vol)
      refine ⟨(w.map Candle.time).drop ((w.length + 1) - MAX_CANDLES), ?_, ?_, ?_, ?_, ?_⟩
      · rw [hupd]
        exact hstep.1
      · intro x hx
        have hxmem : x ∈ w.map Candle.time := List.mem_of_mem_drop hx
        have := mem_le_getLastD_of_pairwise_lt _ hinc x hxmem
        rw [hlast_time] at this
        omega
      · exact (hinc.sublist (List.drop_sublist _ _))
      · rw [hupd]
        exact hstep.2.2
      · rw [hupd, hstep.2.1]
        simp only [hw]
        rw [if_neg hteq]

/-- C9 counterexample: the claim quantifies over every call sequence, but
`updateCandles` appends an out-of-order candle unconditionally — pushing
key 120000 and then key 60000 from an empty window leaves the keys
`[120000, 60000]`, which are not strictly increasing. -/
theorem window_keys_counterexample :
    (updateCandles (updateCandles [] (mkCandle 120000 1)) (mkCandle 60000 1)).map Candle.time
        = [120000, 60000]
    ∧ ¬ (((updateCandles (updateCandles [] (mkCandle 120000 1)) (mkCandle 60000 1)).map
          Candle.time).Pairwise (· < ·)) := by
  refine ⟨by decide, by decide⟩

/-- C9 amended: strict increase of the retained keys is preserved by every
`updateCandles` and `aggregateCandleLocally` call whose incoming key (or
bucket key) is at least the window's last key, so windows built from
in-order feeds keep strictly increasing keys after every call. -/
theorem window_keys_strictly_increasing (w : List Candle)
    (hlen : w.length ≤ MAX_CANDLES)
    (hinc : (w.map Candle.time).Pairwise (· < ·)) :
    (∀ c : Candle, (w.map Candle.time).getLast?.getD 0 ≤ c.time →
        ((updateCandles w c).map Candle.time).Pairwise (· < ·))
    ∧ (∀ (price : ℚ) (t : ℕ) (vol : ℚ),
        (w.map Candle.time).getLast?.getD 0 ≤ t / 60000 * 60000 →
        ((aggregateCandleLocally w price t vol).map Candle.time).Pairwise (· < ·)) := by
  constructor
  · intro c hlast
    obtain ⟨pre, ht, hltp, hp, _, _⟩ := updateCandles_step w c hlen hinc hlast
    rw [ht]
    refine List.pairwise_append.mpr ⟨hp, by simp, ?_⟩
    intro a ha b hb
    simp only [List.mem_singleton] at hb
    subst hb
    exact hltp a ha
  · intro price t vol hlast
    obtain ⟨pre, ht, hltp, hp, _, _⟩ := aggregateCandleLocally_step w price t vol hlen hinc hlast
    rw [ht]
    refine List.pairwise_append.mpr ⟨hp, by simp, ?_⟩
    intro a ha b hb
    simp only [List.mem_singleton] at hb
    subst hb
    exact hltp a ha

/-- C9 witness: strict-increase preservation instantiated at a one-candle
window with an in-order candle and an in-order tick. -/
theorem window_keys_strictly_increasing_witness :
    ([mkCandle 0 1] : List Candle).length ≤ MAX_CANDLES
    ∧ (([mkCandle 0 1] : List Candle).map Candle.time).Pairwise (· < ·)
    ∧ (([mkCandle 0 1] : List Candle).map Candle.time).getLast?.getD 0 ≤ (mkCandle 60000 2).time
    ∧ ((updateCandles [mkCandle 0 1] (mkCandle 60000 2)).map Candle.time).Pairwise (· < ·)
    ∧ (([mkCandle 0 1] : List Candle).map Candle.time).getLast?.getD 0 ≤ 120000 / 60000 * 60000
    ∧ ((aggregateCandleLocally [mkCandle 0 1] 2 120000 60).map Candle.time).Pairwise (· < ·) :=
  ⟨by decide, by decide, by decide,
    (window_keys_strictly_increasing [mkCandle 0 1] (by decide) (by decide)).1
      (mkCandle 60000 2) (by decide),
    by decide,
    (window_keys_strictly_increasing [mkCandle 0 1] (by decide) (by decide)).2
      2 120000 60 (by decide)⟩

/-- C3: every single `updateCandles` or `aggregateCandleLocally` call
leaves the window at length at most `MAX_CANDLES = 120` — hence the bound
holds after each call of any call sequence — and when a new key lands on a
full window the evicted candle is the oldest (FIFO): the resulting keys are
the old keys without the first one, followed by the new key. -/
theorem window_bound_and_fifo :
    (∀ (w : List Candle) (c : Candle), (updateCandles w c).length ≤ MAX_CANDLES)
    ∧ (∀ (w : List Candle) (price : ℚ) (t : ℕ) (vol : ℚ),
        (aggregateCandleLocally w price t vol).length ≤ MAX_CANDLES)
    ∧ (∀ (w : List Candle) (c : Candle), w.length = MAX_CANDLES →
        (w.map Candle.time).getLast? ≠ some c.time →
        (updateCandles w c).map Candle.time = (w.map Candle.time).drop 1 ++ [c.time])
    ∧ (∀ (w : List Candle) (price : ℚ) (t : ℕ) (vol : ℚ), w.length = MAX_CANDLES →
        (w.map Candle.time).getLast? ≠ some (t / 60000 * 60000) →
        (aggregateCandleLocally w price t vol).map Candle.time
          = (w.map Candle.time).drop 1 ++ [t / 60000 * 60000]) := by
  have hlast_of_ne : ∀ (w : List Candle) (k : ℕ), w ≠ [] →
      (w.map Candle.time).getLast? ≠ some k →
      ∀ l, w.getLast? = some l → l.time ≠ k := by
    intro w k hne hk l hl heq
    apply hk
    rw [List.getLast?_map, hl]
    simp [heq]
  refine ⟨?_, ?_, ?_, ?_⟩
  · intro w c
    simp only [updateCandles]
    rw [applyIndicators_length]
    exact enforceBound_length_le _
  · intro w price t vol
    simp only [aggregateCandleLocally]
    rw [applyIndicators_length]
    exact enforceBound_length_le _
  · intro w c hfull hk
    have hne : w ≠ [] := by
      intro hnil
      rw [hnil] at hfull
      simp [MAX_CANDLES] at hfull
    rcases hwl : w.getLast? with _ | l
    · exact absurd (List.getLast?_eq_none_iff.mp hwl) hne
    · have hneq : l.time ≠ c.time := hlast_of_ne w c.time hne hk l hwl
      have hupd : updateCandles w c = applyIndicators (enforceBound (w ++ [c])) := by
        simp only [updateCandles, hwl]
        rw [if_neg hneq]
      have hstep := (append_step_core w c).1
      have hone : w.length + 1 - MAX_CANDLES = 1 := by omega
      rw [hupd, hstep, hone]
  · intro w price t vol hfull hk
    have hne : w ≠ [] := by
      intro hnil
      rw [hnil] at hfull
      simp [MAX_CANDLES] at hfull
    rcases hwl : w.getLast? with _ | l
    · exact absurd (List.getLast?_eq_none_iff.mp hwl) hne
    · have hneq : l.time ≠ t / 60000 * 60000 := hlast_of_ne w _ hne hk l hwl
      have hupd : aggregateCandleLocally w price t vol
          = applyIndicators (enforceBound (w ++ [freshTick price (t / 60000 * 60000) vol])) := by
        simp only [aggregateCandleLocally, hwl]
        rw [if_neg hneq]
      have hstep := (append_step_core w (freshTick price (t / 60000 * 60000) vol)).1
      have hone : w.length + 1 - MAX_CANDLES = 1 := by omega
      rw [hupd, hstep, hone]
      simp [freshTick]

/-- C3 witness: the bound and FIFO eviction instantiated on a concrete full
window of 120 minute candles, for both mutation paths. -/
theorem window_bound_and_fifo_witness :
    (updateCandles fifoWindow fifoCandle).length ≤ MAX_CANDLES
    ∧ (aggregateCandleLocally fifoWindow 3 7200000 60).length ≤ MAX_CANDLES
    ∧ fifoWindow.length = MAX_CANDLES
    ∧ (fifoWindow.map Candle.time).getLast? ≠ some fifoCandle.time
    ∧ (updateCandles fifoWindow fifoCandle).map Candle.time
        = (fifoWindow.map Candle.time).drop 1 ++ [fifoCandle.time]
    ∧ (fifoWindow.map Candle.time).getLast? ≠ some (7200000 / 60000 * 60000)
    ∧ (aggregateCandleLocally fifoWindow 3 7200000 60).map Candle.time
        = (fifoWindow.map Candle.time).drop 1 ++ [7200000 / 60000 * 60000] :=
  ⟨window_bound_and_fifo.1 fifoWindow fifoCandle,
    window_bound_and_fifo.2.1 fifoWindow 3 7200000 60,
    by decide,
    by decide,
    window_bound_and_fifo.2.2.1 fifoWindow fifoCandle (by decide) (by decide),
    by decide,
    window_bound_and_fifo.2.2.2 fifoWindow 3 7200000 60 (by decide) (by decide)⟩

theorem aggregateCandleLocally_last_core (w : List Candle) (l : Candle)
    (hw : w.getLast? = some l) (price : ℚ) (t : ℕ) (vol : ℚ) :
    ((aggregateCandleLocally w price t vol).map core).getLast? =
      some (core (if l.time = t / 60000 * 60000 then mergedTick l price vol
                  else freshTick price (t / 60000 * 60000) vol)) := by
  by_cases hteq : l.time = t / 60000 * 60000
  · have hupd : aggregateCandleLocally w price t vol
        = applyIndicators (enforceBound (w.dropLast ++ [mergedTick l price vol])) := by
      simp only [aggregateCandleLocally, hw]
      rw [if_pos hteq]
    rw [hupd, (append_step_core _ _).2.1, if_pos hteq]
  · have hupd : aggregateCandleLocally w price t vol
        = applyIndicators (enforceBound (w ++ [freshTick price (t / 60000 * 60000) vol])) := by
      simp only [aggregateCandleLocally, hw]
      rw [if_neg hteq]
    rw [hupd, (append_step_core _ _).2.1, if_neg hteq]

theorem exists_getLast_of_map_core {w : List Candle} {x : Candle}
    (h : (w.map core).getLast? = some (core x)) :
    ∃ l, w.getLast? = some l ∧ l.time = x.time ∧ l.open_ = x.open_ ∧ l.high = x.high
      ∧ l.low = x.low ∧ l.close = x.close ∧ l.volume = x.volume ∧ l.aiSignal = x.aiSignal := by
  rw [List.getLast?_map] at h
  rcases hw : w.getLast? with _ | l
  · rw [hw] at h
    simp at h
  · rw [hw] at h
    have hc : core l = core x := by simpa using h
    simp only [core, Prod.mk.injEq] at hc
    obtain ⟨h1, h2, h3, h4, h5, h6, h7⟩ := hc
    exact ⟨l, rfl, h1, h2, h3, h4, h5, h6, h7⟩

/-- C4 counterexample: with the last candle already in the tick's bucket,
two ticks carrying volume hints 60 and 120 leave the candle's volume at 8
(prior volume 5 plus `60/60` plus `120/60`), not at the claimed sum
`60 + 120` of the two hints. -/
theorem aggregate_volume_counterexample :
    ((aggregateCandleLocally (aggregateCandleLocally [tickBase] 20 1000 60) 8 2000 120).getLast?).map
        Candle.volume = some 8
    ∧ ((8 : ℚ) ≠ 60 + 120) := by
  have h1core := aggregateCandleLocally_last_core [tickBase] tickBase rfl 20 1000 60
  rw [if_pos (by decide)] at h1core
  obtain ⟨l1, hl1, hl1t, _, _, _, _, hl1v, _⟩ := exists_getLast_of_map_core h1core
  simp only [mergedTick] at hl1t hl1v
  have hl1time : l1.time = 2000 / 60000 * 60000 := by
    rw [hl1t]
    decide
  have h2core := aggregateCandleLocally_last_core _ l1 hl1 8 2000 120
  rw [if_pos hl1time] at h2core
  obtain ⟨l2, hl2, _, _, _, _, _, hl2v, _⟩ := exists_getLast_of_map_core h2core
  simp only [mergedTick] at hl2v
  constructor
  · rw [hl2, Option.map_some']
    have : l2.volume = 8 := by
      rw [hl2v, hl1v]
      show tickBase.volume + 60 / 60 + 120 / 60 = 8
      norm_num [tickBase]
    rw [this]
  · norm_num

/-- C4 (amended): two ticks whose bucket is the last candle's key merge in
place — `high` is the max of the prior high and both prices, `low` the min,
`close` the second price, and `volume` is the prior volume plus each tick's
volume hint divided by 60 (its per-second slice) — while a tick in a new
bucket appends a fresh candle with all four prices equal to the tick price
and `volume = vol / 60`. -/
theorem aggregateCandleLocally_two_ticks (w : List Candle) (lc : Candle)
    (hw : w.getLast? = some lc)
    (p1 p2 : ℚ) (t1 t2 : ℕ) (v1 v2 : ℚ)
    (hb1 : lc.time = t1 / 60000 * 60000)
    (hb2 : t1 / 60000 * 60000 = t2 / 60000 * 60000) :
    (∃ resLast : Candle,
        (aggregateCandleLocally (aggregateCandleLocally w p1 t1 v1) p2 t2 v2).getLast?
            = some resLast
        ∧ resLast.time = lc.time
        ∧ resLast.open_ = lc.open_
        ∧ resLast.high = max (max lc.high p1) p2
        ∧ resLast.low = min (min lc.low p1) p2
        ∧ resLast.close = p2
        ∧ resLast.volume = lc.volume + v1 / 60 + v2 / 60
        ∧ resLast.aiSignal = lc.aiSignal)
    ∧ (∀ (p : ℚ) (t : ℕ) (v : ℚ), lc.time ≠ t / 60000 * 60000 →
        ∃ newLast : Candle,
          (aggregateCandleLocally w p t v).getLast? = some newLast
          ∧ newLast.time = t / 60000 * 60000
          ∧ newLast.open_ = p ∧ newLast.high = p ∧ newLast.low = p ∧ newLast.close = p
          ∧ newLast.volume = v / 60 ∧ newLast.aiSignal = none) := by
  constructor
  · have h1core := aggregateCandleLocally_last_core w lc hw p1 t1 v1
    rw [if_pos hb1] at h1core
    obtain ⟨l1, hl1, hl1t, hl1o, hl1h, hl1l, hl1c, hl1v, hl1s⟩ :=
      exists_getLast_of_map_core h1core
    simp only [mergedTick] at hl1t hl1o hl1h hl1l hl1c hl1v hl1s
    have hl1time : l1.time = t2 / 60000 * 60000 := by
      rw [hl1t, hb1, hb2]
    have h2core := aggregateCandleLocally_last_core _ l1 hl1 p2 t2 v2
    rw [if_pos hl1time] at h2core
    obtain ⟨l2, hl2, hl2t, hl2o, hl2h, hl2l, hl2c, hl2v, hl2s⟩ :=
      exists_getLast_of_map_core h2core
    simp only [mergedTick] at hl2t hl2o hl2h hl2l hl2c hl2v hl2s
    refine ⟨l2, hl2, ?_, ?_, ?_, ?_, ?_, ?_, ?_⟩
    · rw [hl2t, hl1t]
    · rw [hl2o, hl1o]
    · rw [hl2h, hl1h]
    · rw [hl2l, hl1l]
    · exact hl2c
    · rw [hl2v, hl1v]
    · rw [hl2s, hl1s]
  · intro p t v hne
    have hcore := aggregateCandleLocally_last_core w lc hw p t v
    rw [if_neg hne] at hcore
    obtain ⟨l2, hl2, hl2t, hl2o, hl2h, hl2l, hl2c, hl2v, hl2s⟩ :=
      exists_getLast_of_map_core hcore
    simp only [freshTick] at hl2t hl2o hl2h hl2l hl2c hl2v hl2s
    exact ⟨l2, hl2, hl2t, hl2o, hl2h, hl2l, hl2c, hl2v, hl2s⟩

/-- C4 witness: the two-tick merge and the fresh-bucket append instantiated
on a concrete one-candle window. -/
theorem aggregateCandleLocally_two_ticks_witness :
    ([tickBase] : List Candle).getLast? = some tickBase
    ∧ tickBase.time = 1000 / 60000 * 60000
    ∧ 1000 / 60000 * 60000 = 2000 / 60000 * 60000
    ∧ (∃ resLast : Candle,
        (aggregateCandleLocally (aggregateCandleLocally [tickBase] 20 1000 60) 8 2000 120).getLast?
            = some resLast
        ∧ resLast.time = tickBase.time
        ∧ resLast.open_ = tickBase.open_
        ∧ resLast.high = max (max tickBase.high 20) 8
        ∧ resLast.low = min (min tickBase.low 20) 8
        ∧ resLast.close = 8
        ∧ resLast.volume = tickBase.volume + 60 / 60 + 120 / 60
        ∧ resLast.aiSignal = tickBase.aiSignal)
    ∧ tickBase.time ≠ 60000 / 60000 * 60000
    ∧ (∃ newLast : Candle,
        (aggregateCandleLocally [tickBase] 7 60000 30).getLast? = some newLast
        ∧ newLast.time = 60000 / 60000 * 60000
        ∧ newLast.open_ = 7 ∧ newLast.high = 7 ∧ newLast.low = 7 ∧ newLast.close = 7
        ∧ newLast.volume = 30 / 60 ∧ newLast.aiSignal = none) :=
  ⟨by decide, by decide, by decide,
    (aggregateCandleLocally_two_ticks [tickBase] tickBase (by decide) 20 8 1000 2000 60 120
      (by decide) (by decide)).1,
    by decide,
    (aggregateCandleLocally_two_ticks [tickBase] tickBase (by decide) 20 8 1000 2000 60 120
      (by decide) (by decide)).2 7 60000 30 (by decide)⟩

/-- Second half of the replace-twice scenario: a call whose key equals the
single trailing key of the window replaces the last candle in place,
leaving exactly one candle at that key, with the incoming candle's carried
fields and the previous last candle's signal. -/
theorem updateCandles_replace_last (w1 : List Candle) (c2 m1 : Candle)
    (hm1t : m1.time = c2.time)
    (hb1 : w1.length ≤ MAX_CANDLES)
    (hpre : ∃ pre1 : List ℕ, w1.map Candle.time = pre1 ++ [c2.time]
        ∧ (∀ x ∈ pre1, x < c2.time) ∧ pre1.Pairwise (· < ·))
    (hc1core : (w1.map core).getLast? = some (core m1)) :
    ((updateCandles w1 c2).map Candle.time).count c2.time = 1
    ∧ ∃ resLast : Candle,
        (updateCandles w1 c2).getLast? = some resLast
        ∧ resLast.time = c2.time
        ∧ resLast.open_ = c2.open_ ∧ resLast.high = c2.high ∧ resLast.low = c2.low
        ∧ resLast.close = c2.close ∧ resLast.volume = c2.volume
        ∧ resLast.aiSignal = m1.aiSignal := by
  obtain ⟨pre1, ht1, hlt1, hp1⟩ := hpre
  have hinc1 : (w1.map Candle.time).Pairwise (· < ·) := by
    rw [ht1]
    refine List.pairwise_append.mpr ⟨hp1, by simp, ?_⟩
    intro a ha b hb
    simp only [List.mem_singleton] at hb
    subst hb
    exact hlt1 a ha
  have hlast1 : (w1.map Candle.time).getLast?.getD 0 ≤ c2.time := by
    rw [ht1, List.getLast?_concat]
    exact le_refl _
  obtain ⟨l1, hl1, hl1t, _, _, _, _, _, hl1s⟩ := exists_getLast_of_map_core hc1core
  have hl1time : l1.time = c2.time := by rw [hl1t, hm1t]
  obtain ⟨pre2, ht2, hlt2, hp2, hb2, hc2core⟩ := updateCandles_step w1 c2 hb1 hinc1 hlast1
  have hcore2 : ((updateCandles w1 c2).map core).getLast?
      = some (core (if l1.time = c2.time then { c2 with aiSignal := l1.aiSignal } else c2)) := by
    rw [hl1] at hc2core
    exact hc2core
  rw [if_pos hl1time] at hcore2
  obtain ⟨l2, hl2, hl2t, hl2o, hl2h, hl2l, hl2c, hl2v, hl2s⟩ :=
    exists_getLast_of_map_core hcore2
  constructor
  · rw [ht2, List.count_append]
    have hzero : pre2.count c2.time = 0 :=
      List.count_eq_zero.mpr (fun hmem => lt_irrefl _ (hlt2 _ hmem))
    rw [hzero]
    simp
  · exact ⟨l2, hl2, hl2t, hl2o, hl2h, hl2l, hl2c, hl2v, hl2s.trans hl1s⟩

/-- C1 counterexample: starting from a window already holding an
unsignalled candle at key 0, a first `applyCandle` carrying a `bullish`
signal and a second carrying none leave the sole candle at that key with no
signal: the replace branch overwrites the incoming candle's own signal with
the previous candle's (absent) one, so a signal "set by the first call's
candle" is not carried over even though the second call cleared nothing. -/
theorem updateCandles_signal_counterexample :
    sigFirst.aiSignal = some Signal.bullish
    ∧ (mkCandle 0 2).aiSignal = none
    ∧ (updateCandles (updateCandles [mkCandle 0 1] sigFirst) (mkCandle 0 2)).map Candle.aiSignal
        = [none]
    ∧ (updateCandles (updateCandles [mkCandle 0 1] sigFirst) (mkCandle 0 2)).map Candle.aiSignal
        ≠ [some Signal.bullish] := by
  refine ⟨rfl, rfl, by decide, by decide⟩

/-- C1 (amended): applying `updateCandles` twice with the same `openTime`
onto an in-order window leaves exactly one candle at that key, with
open/high/low/close/volume verbatim from the second call; the surviving
signal is the one the window's candle at that key held after the first
call — the first call's own signal when it appended (no candle at that key
existed), else the signal already present in the window — an incoming
candle's signal being discarded on every replacement. -/
theorem updateCandles_same_key_twice (w : List Candle) (c1 c2 : Candle)
    (hlen : w.length ≤ MAX_CANDLES)
    (hinc : (w.map Candle.time).Pairwise (· < ·))
    (hlast : (w.map Candle.time).getLast?.getD 0 ≤ c1.time)
    (ht : c1.time = c2.time) :
    ((updateCandles (updateCandles w c1) c2).map Candle.time).count c2.time = 1
    ∧ ∃ resLast : Candle,
        (updateCandles (updateCandles w c1) c2).getLast? = some resLast
        ∧ resLast.time = c2.time
        ∧ resLast.open_ = c2.open_ ∧ resLast.high = c2.high ∧ resLast.low = c2.low
        ∧ resLast.close = c2.close ∧ resLast.volume = c2.volume
        ∧ resLast.aiSignal = (match w.getLast? with
            | some l => if l.time = c1.time then l.aiSignal else c1.aiSignal
            | none => c1.aiSignal) := by
  obtain ⟨pre1, ht1, hlt1, hp1, hb1, hc1core⟩ := updateCandles_step w c1 hlen hinc hlast
  have hpre : ∃ pre : List ℕ, (updateCandles w c1).map Candle.time = pre ++ [c2.time]
      ∧ (∀ x ∈ pre, x < c2.time) ∧ pre.Pairwise (· < ·) := by
    refine ⟨pre1, ?_, ?_, hp1⟩
    · rw [ht1, ht]
    · intro x hx
      exact ht ▸ hlt1 x hx
  rcases hwl : w.getLast? with _ | l0
  · rw [hwl] at hc1core
    have hc1core' : ((updateCandles w c1).map core).getLast? = some (core c1) := hc1core
    have hres := updateCandles_replace_last (updateCandles w c1) c2 c1 ht hb1 hpre hc1core'
    simp only [hwl]
    exact hres
  · rw [hwl] at hc1core
    by_cases hteq : l0.time = c1.time
    · have hc1core' : ((updateCandles w c1).map core).getLast?
          = some (core (if l0.time = c1.time then { c1 with aiSignal := l0.aiSignal } else c1)) :=
        hc1core
      rw [if_pos hteq] at hc1core'
      have hm1t : ({ c1 with aiSignal := l0.aiSignal } : Candle).time = c2.time := ht
      have hres := updateCandles_replace_last (updateCandles w c1) c2
        { c1 with aiSignal := l0.aiSignal } hm1t hb1 hpre hc1core'
      simp only [hwl]
      rw [if_pos hteq]
      exact hres
    · have hc1core' : ((updateCandles w c1).map core).getLast?
          = some (core (if l0.time = c1.time then { c1 with aiSignal := l0.aiSignal } else c1)) :=
        hc1core
      rw [if_neg hteq] at hc1core'
      have hres := updateCandles_replace_last (updateCandles w c1) c2 c1 ht hb1 hpre hc1core'
      simp only [hwl]
      rw [if_neg hteq]
      exact hres

/-- C1 witness: the replace-twice contract instantiated from the empty
window with a signalled first candle and an unsignalled second candle at
the same key. -/
theorem updateCandles_same_key_twice_witness :
    ([] : List Candle).length ≤ MAX_CANDLES
    ∧ ((([] : List Candle)).map Candle.time).Pairwise (· < ·)
    ∧ ((([] : List Candle)).map Candle.time).getLast?.getD 0 ≤ sigFirst.time
    ∧ sigFirst.time = (mkCandle 0 2).time
    ∧ (((updateCandles (updateCandles [] sigFirst) (mkCandle 0 2)).map Candle.time).count
          (mkCandle 0 2).time = 1
      ∧ ∃ resLast : Candle,
          (updateCandles (updateCandles [] sigFirst) (mkCandle 0 2)).getLast? = some resLast
          ∧ resLast.time = (mkCandle 0 2).time
          ∧ resLast.open_ = (mkCandle 0 2).open_ ∧ resLast.high = (mkCandle 0 2).high
          ∧ resLast.low = (mkCandle 0 2).low
          ∧ resLast.close = (mkCandle 0 2).close ∧ resLast.volume = (mkCandle 0 2).volume
          ∧ resLast.aiSignal = (match ([] : List Candle).getLast? with
              | some l => if l.time = sigFirst.time then l.aiSignal else sigFirst.aiSignal
              | none => sigFirst.aiSignal)) :=
  ⟨by decide, by decide, by decide, rfl,
    updateCandles_same_key_twice [] sigFirst (mkCandle 0 2) (by decide) (by decide) (by decide) rfl⟩

end Jarvis
